import Mathlib

/-!
Verification development for the nestle-chatbot backend (Express + Neo4j + Azure
Search).  The definitions below are shallow embeddings of the JavaScript source:

* JS strings are modelled as Lean `String`s, with `String.data` (a `List Char`)
  standing for the sequence of code units; `substring`, `includes`, `startsWith`
  and regex character-class replacement are modelled on that list.
* The Neo4j store is modelled as an explicit `Graph` state (node list + edge
  list) and each Cypher statement of `GraphRAG.ingestContent` /
  `queryRelatedConcepts` as a pure state transformation, with the external
  `apoc.text.jaroWinklerDistance` similarity as an oracle parameter.
* `async` control flow is sequential in the source (every call is awaited), so
  it is embedded as plain function composition; thrown exceptions are modelled
  with `Except` / explicit failure oracles where a claim is about error paths.
-/

namespace NestleChatbot

/-- Does the code-unit list start with the given pattern? -/
def startsWithCU : List Char → List Char → Bool
  | _, [] => true
  | [], _ :: _ => false
  | a :: s, b :: p => a == b && startsWithCU s p

/-- Does the code-unit list contain the pattern as a contiguous run? -/
def containsCU : List Char → List Char → Bool
  | [], pat => startsWithCU [] pat
  | a :: s, pat => startsWithCU (a :: s) pat || containsCU s pat

/-- JS `haystack.includes(needle)`: substring test on code units. -/
def jsIncludes (s sub : String) : Bool :=
  containsCU s.data sub.data

/-- JS `s.startsWith(p)` on code units. -/
def jsStartsWith (s p : String) : Bool :=
  startsWithCU s.data p.data

/-- Worker for `chunksOf`, structurally recursive on a fuel bound on the
number of chunks still to cut (the list length suffices). -/
def chunksOfGo (n : Nat) : Nat → List α → List (List α)
  | _, [] => []
  | 0, _ :: _ => []
  | fuel + 1, a :: l =>
    if n = 0 then [] else (a :: l).take n :: chunksOfGo n fuel ((a :: l).drop n)

/-- Slicing loop `for (let i = 0; i < l.length; i += n) l.slice(i, i + n)`:
the list of successive chunks of size `n`. -/
def chunksOf (n : Nat) (l : List α) : List (List α) :=
  chunksOfGo n l.length l

/-- A JS value sitting where a string is expected: either an actual string or
anything that fails the `typeof item.text === 'string'` check
(`undefined`, `null`, numbers, ...). -/
inductive JStr where
  | str (s : String)
  | notStr
  deriving DecidableEq

/-- A raw scraped content item, as handed to `ingestContent` /
`uploadToAzureSearch`.  `type` is `none` when the object has no `type`
property (e.g. the `{url, html}` page entries). -/
structure RawItem where
  text : JStr
  type : Option String
  url : String
  deriving DecidableEq

/-- A content item after the `validContent` filter/map inside
`ingestContent`: a guaranteed string `text` of length > 10, graph-eligible
`type`, and the derived `id`. -/
structure NormItem where
  id : String
  text : String
  type : String
  url : String
  deriving DecidableEq

/-- `item.text.substring(0, 50).replace(/[^a-zA-Z0-9]/g, '_')`, one character
at a time. -/
def sanitizeChar (c : Char) : Char :=
  if c.isAlphanum then c else '_'

/-- The derived node id:
`` `${item.url}-${item.text.substring(0, 50).replace(/[^a-zA-Z0-9]/g, '_')}` ``. -/
def mkId (url text : String) : String :=
  url ++ "-" ++ String.mk ((text.data.take 50).map sanitizeChar)

/-- The graph-eligible content types (`['h1','h2','h3','h4','p','li']`). -/
def graphEligibleTypes : List String := ["h1", "h2", "h3", "h4", "p", "li"]

/-- One item of the `validContent` filter/map chain
(`content.filter(...).map(...)`, lines 144-150): `none` when the item is
dropped by the filter.  A JS-falsy array entry is modelled as `none` on the
input side. -/
def normItem : Option RawItem → Option NormItem
  | none => none
  | some it =>
    match it.text, it.type with
    | .str s, some t =>
      if s.length > 10 && decide (t ∈ graphEligibleTypes) then
        some ⟨mkId it.url s, s, t, it.url⟩
      else
        none
    | _, _ => none

/-- `validContent`: the filtered and id-tagged content list. -/
def validContent (content : List (Option RawItem)) : List NormItem :=
  content.filterMap normItem

/-- A persisted `:Content` node. -/
structure Node where
  id : String
  text : String
  type : String
  url : String
  deriving DecidableEq

/-- A persisted `RELATED_TO` relationship, identified (as `MERGE` does) by its
endpoints and its `context` property. -/
structure Edge where
  src : String
  tgt : String
  context : String
  deriving DecidableEq

/-- The graph store state. -/
structure Graph where
  nodes : List Node
  edges : List Edge
  deriving DecidableEq

def emptyGraph : Graph := ⟨[], []⟩

/-- `MATCH (n:Content {id: i})` under the uniqueness constraint: the node with
the given id, if present. -/
def findNode (g : Graph) (i : String) : Option Node :=
  g.nodes.find? (fun n => n.id = i)

/-- The `SET` half of the node `MERGE`: overwrite `text`/`type`/`url` on the
node carrying the merged id, leave other nodes alone. -/
def setProps (item : NormItem) (n : Node) : Node :=
  if n.id = item.id then { n with text := item.text, type := item.type, url := item.url }
  else n

/-- `MERGE (n:Content {id: item.id}) SET n.text = ..., n.type = ..., n.url = ...`:
update every node carrying the id if one exists, otherwise create it. -/
def mergeNode (g : Graph) (item : NormItem) : Graph :=
  if g.nodes.any (fun n => n.id = item.id) then
    { g with nodes := g.nodes.map (setProps item) }
  else
    { g with nodes := g.nodes ++ [⟨item.id, item.text, item.type, item.url⟩] }

/-- `MERGE (n)-[:RELATED_TO {context: 'section'}]->(other)`: add the edge
unless an identical one already exists. -/
def mergeEdge (g : Graph) (e : Edge) : Graph :=
  if e ∈ g.edges then g else { g with edges := g.edges ++ [e] }

/-- The candidate targets for one heading node `n` (the `MATCH (other:Content)
WHERE ...` clause of the relationship statement, lines 176-181). -/
def edgeCandidates (g : Graph) (n : Node) : List Node :=
  g.nodes.filter (fun other =>
    other.url = n.url &&
    decide (other.type ∈ ["p", "li"]) &&
    containsCU other.text.data n.text.data &&
    n.text.length > 5 &&
    other.id ≠ n.id)

/-- The relationship statement for a single unwound heading item. -/
def ingestEdgesFor (g : Graph) (h : NormItem) : Graph :=
  match findNode g h.id with
  | none => g
  | some n =>
    (edgeCandidates g n).foldl (fun g2 other => mergeEdge g2 ⟨n.id, other.id, "section"⟩) g

/-- The node phase: batches of 100, `MERGE`+`SET` per unwound item. -/
def ingestNodes (g : Graph) (items : List NormItem) : Graph :=
  (chunksOf 100 items).foldl (fun acc batch => batch.foldl mergeNode acc) g

/-- `['h1','h2','h3','h4'].includes(item.type)`. -/
def isHeadingType (it : NormItem) : Bool :=
  decide (it.type ∈ ["h1", "h2", "h3", "h4"])

/-- The edge phase: heading items only, batches of 50. -/
def ingestEdges (g : Graph) (headings : List NormItem) : Graph :=
  (chunksOf 50 headings).foldl (fun acc batch => batch.foldl ingestEdgesFor acc) g

/-- `GraphRAG.ingestContent` (the canonical, URL-scoped variant, lines
137-190) on the failure-free path: filter/tag, node phase, then edge phase. -/
def ingestContent (content : List (Option RawItem)) (g : Graph) : Graph :=
  let valid := validContent content
  ingestEdges (ingestNodes g valid) (valid.filter isHeadingType)

/-- Graphs reachable from an empty store by runs of `ingestContent`. -/
inductive Built : Graph → Prop where
  | empty : Built emptyGraph
  | ingest (content : List (Option RawItem)) (g : Graph) :
      Built g → Built (ingestContent content g)

/-! ### `queryRelatedConcepts` (lines 193-229)

The Cypher query matches `RELATED_TO` edges, filters rows by a substring test
against the question, scores each row with the external
`apoc.text.jaroWinklerDistance` (modelled as the oracle `sim`, applied to the
two endpoint texts), keeps rows scoring strictly above `0.6`, orders by the
score descending, limits to 10 rows, and reports the score rounded to two
decimals (`toFixed(2)`; the resulting decimal string is modelled by the exact
rational it denotes). -/

/-- One row of the Cypher `MATCH (n)-[r:RELATED_TO]->(m)` result. -/
structure QRow where
  n : Node
  m : Node
  ctx : String
  simv : ℚ
  deriving DecidableEq

/-- `x.toFixed(2)` for non-negative `x`, as the rational value of the printed
string: round half away from zero to two decimal places. -/
def round2 (x : ℚ) : ℚ :=
  (⌊x * 100 + 1 / 2⌋ : ℚ) / 100

/-- Rows surviving the `WHERE n.text CONTAINS $query OR m.text CONTAINS $query`
filter, scored by the similarity oracle. -/
def queryRows (sim : String → String → ℚ) (q : String) (g : Graph) : List QRow :=
  g.edges.filterMap (fun e =>
    match findNode g e.src, findNode g e.tgt with
    | some n, some m =>
      if containsCU n.text.data q.data || containsCU m.text.data q.data then
        some ⟨n, m, e.context, sim n.text m.text⟩
      else none
    | _, _ => none)

/-- Descending order on the similarity score. -/
def simGE (a b : QRow) : Prop := b.simv ≤ a.simv

instance : DecidableRel simGE := fun a b => inferInstanceAs (Decidable (b.simv ≤ a.simv))

instance : IsTotal QRow simGE := ⟨fun a b => le_total b.simv a.simv⟩

instance : IsTrans QRow simGE := ⟨fun _ _ _ h1 h2 => le_trans h2 h1⟩

/-- The rows after `WHERE similarity > 0.6`, `ORDER BY similarity DESC`,
`LIMIT 10`. -/
def sortedQueryRows (sim : String → String → ℚ) (q : String) (g : Graph) : List QRow :=
  (((queryRows sim q g).filter (fun r => decide ((3 : ℚ) / 5 < r.simv))).insertionSort simGE).take 10

/-- One record of the returned relation list. -/
structure Relation where
  source : String
  relationship : String
  target : String
  sourceUrl : String
  targetUrl : String
  confidence : ℚ
  deriving DecidableEq

/-- `queryRelatedConcepts` on the failure-free path: the mapped records, with
the JS fallback `record.get('relationship') || 'related'`. -/
def queryRelatedConcepts (sim : String → String → ℚ) (q : String) (g : Graph) : List Relation :=
  (sortedQueryRows sim q g).map (fun r =>
    ⟨r.n.text, if r.ctx = "" then "related" else r.ctx, r.m.text, r.n.url, r.m.url, round2 r.simv⟩)

/-! ### The `/api/chat` handler (lines 450-525)

The handler validates the message, awaits the lexical search (a failure there
throws into the outer `catch`, which answers 500), calls
`queryRelatedConcepts` (whose *internal* `catch` turns a graph failure into an
empty list, lines 223-226), builds the context, and calls the language model
(a failure there also answers 500).  External outcomes are oracles. -/

/-- A lexical search hit as consumed by the handler. -/
structure SearchHit where
  text : String
  url : String
  highlights : String
  deriving DecidableEq

/-- The observable response of the chat endpoint. -/
inductive ChatResponse where
  | badRequest
  | ok (response : String) (sources : List (String × String))
  | serverError
  deriving DecidableEq

/-- JS `text.substring(0, k)`. -/
def jsSubstring (s : String) (k : Nat) : String :=
  String.mk (s.data.take k)

/-- The graph contribution to the context: the query result on success, `[]`
when the graph read failed (the `catch` inside `queryRelatedConcepts`). -/
def graphContribution (graphOutcome : Except Unit Unit) (sim : String → String → ℚ)
    (q : String) (g : Graph) : List Relation :=
  match graphOutcome with
  | .ok _ => queryRelatedConcepts sim q g
  | .error _ => []

/-- The `sources` array of the 200 response: lexical items then graph items,
each as `(text, url)`. -/
def responseSources (hits : List SearchHit) (rels : List Relation) : List (String × String) :=
  hits.map (fun h => (jsSubstring h.text 200 ++ "...", h.url)) ++
    rels.map (fun r => (r.source ++ " " ++ r.relationship ++ " " ++ r.target,
      if r.sourceUrl ≠ "" then r.sourceUrl else r.targetUrl))

/-- The context string handed to the language model. -/
def contextString (hits : List SearchHit) (rels : List Relation) : String :=
  String.intercalate "\n\n"
    (hits.map (fun h => "Relevant content (from " ++ h.url ++ "): " ++
        (if h.highlights ≠ "" then h.highlights else jsSubstring h.text 200)) ++
      rels.map (fun r => "Related concept: " ++ r.source ++ " (" ++ r.sourceUrl ++ ") " ++
        r.relationship ++ " " ++ r.target ++ " (" ++ r.targetUrl ++ ")"))

/-- The chat endpoint.  `message = none` models a missing/falsy `req.body.message`
(`""` is also falsy).  `searchOutcome` is the lexical search, `graphOutcome`
the graph session read, `llm` the completion call. -/
def chatHandler (message : Option String) (searchOutcome : Except Unit (List SearchHit))
    (graphOutcome : Except Unit Unit) (sim : String → String → ℚ) (g : Graph)
    (llm : String → Except Unit String) : ChatResponse :=
  match message with
  | none => .badRequest
  | some msg =>
    if msg = "" then .badRequest
    else
      match searchOutcome with
      | .error _ => .serverError
      | .ok hits =>
        let rels := graphContribution graphOutcome sim msg g
        match llm (contextString hits rels) with
        | .error _ => .serverError
        | .ok resp => .ok resp (responseSources hits rels)

/-! ### `scrapeWebsite` (lines 240-387)

The crawl state is the trio owned by one run: the visited set (as a list,
grown only behind a membership check), the queue, and the `scrapedData`
accumulator.  Page rendering, link extraction, JS `Array.prototype.sort` with
the (inconsistent) recipe comparator, and `new URL(...).toString()`
normalisation are oracles: the theorems below hold for every choice of them. -/

def BASE_URL : String := "https://www.madewithnestle.ca"

def MAX_PAGES : Nat := 950

/-- An entry of the heterogeneous `scrapedData` array: either a raw
`{url, html}` page record (pushed by `extractPageContent`) or a content item
(pushed by the main loop). -/
inductive ScrapedItem where
  | page (url html : String)
  | content (item : RawItem)
  deriving DecidableEq

/-- The crawl-run state owned by `scrapeWebsite`. -/
structure RunState where
  visitedUrls : List String
  queue : List String
  scrapedData : List ScrapedItem
  deriving DecidableEq

/-- The outcome of navigating the shared page to a URL. -/
inductive RenderResult where
  | fail
  | failedEval (html : String)
  | ok (html : String) (items : List RawItem)

/-- `shouldCrawl` (lines 256-266). -/
def shouldCrawl (visitedUrls : List String) (url : String) : Bool :=
  let isFilterPage := jsIncludes url "recipes?f%5B" || jsIncludes url "recipe_tags_filter"
  jsStartsWith url BASE_URL &&
    !isFilterPage &&
    !jsIncludes url "#" &&
    !jsIncludes url "facebook.com" &&
    !jsIncludes url "twitter.com" &&
    !decide (url ∈ visitedUrls)

/-- `extractPageContent` (lines 278-337): navigate, push the raw
`{url, html}` record, then evaluate the in-page extraction.  `render url`
tells whether `page.goto` threw (`fail`), whether the wait/evaluate step threw
after the push (`failedEval`), or the full item list.  Returns the updated run
state and the extracted items (`[]` on any caught error). -/
def extractPageContent (render : String → RenderResult) (url : String) (st : RunState) :
    RunState × List RawItem :=
  match render url with
  | .fail => (st, [])
  | .failedEval html => ({ st with scrapedData := st.scrapedData ++ [.page url html] }, [])
  | .ok html items => ({ st with scrapedData := st.scrapedData ++ [.page url html] }, items)

/-- One iteration of the main crawling loop body (lines 341-375), entered with
a non-empty queue: shift, admission check, mark visited, extract, push items,
collect links, enqueue admissible links not already queued. -/
def crawlStep (render : String → RenderResult) (linksOf : String → Option (List String))
    (prioritize : List String → List String) (normalizeUrl : String → String)
    (st : RunState) : RunState :=
  match st.queue with
  | [] => st
  | currentUrl :: rest =>
    let st1 : RunState := { st with queue := rest }
    if !shouldCrawl st1.visitedUrls currentUrl then st1
    else
      let st2 : RunState := { st1 with visitedUrls := st1.visitedUrls ++ [currentUrl] }
      let (st3, pageData) := extractPageContent render currentUrl st2
      let st4 : RunState :=
        if pageData.length > 0 then
          { st3 with scrapedData := st3.scrapedData ++ pageData.map .content }
        else st3
      match linksOf currentUrl with
      | none => st4
      | some links =>
        { st4 with
          queue := (prioritize links).foldl (fun q link =>
            if shouldCrawl st4.visitedUrls link then
              let normalizedLink := normalizeUrl link
              if decide (normalizedLink ∈ q) then q else q ++ [normalizedLink]
            else q) st4.queue }

/-- The main crawling loop (`while (queue.length > 0 && visitedUrls.size <
MAX_PAGES)`), with explicit fuel standing for the number of iterations the
run still gets to perform. -/
def scrapeLoop (render : String → RenderResult) (linksOf : String → Option (List String))
    (prioritize : List String → List String) (normalizeUrl : String → String) :
    Nat → RunState → RunState
  | 0, st => st
  | fuel + 1, st =>
    if !st.queue.isEmpty && st.visitedUrls.length < MAX_PAGES then
      scrapeLoop render linksOf prioritize normalizeUrl fuel
        (crawlStep render linksOf prioritize normalizeUrl st)
    else st

/-- The state `scrapeWebsite` starts its loop from. -/
def crawlStartState : RunState := ⟨[], [BASE_URL], []⟩

/-! ### `uploadToAzureSearch` (lines 390-423) -/

/-- A document of the upload payload. -/
structure SearchDoc where
  id : String
  text : String
  url : String
  category : String
  deriving DecidableEq

def MAX_BATCH_SIZE : Nat := 30000

/-- `validDocuments` (lines 393-401): keep items whose `text` is a truthy
string, tag the synthetic id (`Date.now()` is the oracle `now`, sampled per
item), truncate `text` to 1000 code units.  The mapping index is threaded
explicitly. -/
def validDocumentsFrom (now : Nat → Nat) (i : Nat) : List (Option RawItem) → List SearchDoc
  | [] => []
  | it :: rest =>
    match it with
    | some ⟨.str s, ty, url⟩ =>
      if s ≠ "" then
        ⟨"doc-" ++ toString i ++ "-" ++ toString (now i), jsSubstring s 1000, url,
          ty.getD "unknown"⟩ :: validDocumentsFrom now (i + 1) rest
      else validDocumentsFrom now i rest
    | _ => validDocumentsFrom now i rest

def validDocuments (now : Nat → Nat) (content : List (Option RawItem)) : List SearchDoc :=
  validDocumentsFrom now 0 content

/-- The upload batches issued by the batching loop (lines 406-416). -/
def uploadBatches (now : Nat → Nat) (content : List (Option RawItem)) : List (List SearchDoc) :=
  chunksOf MAX_BATCH_SIZE (validDocuments now content)

/-! ### Failure semantics of `ingestContent`'s batch loops (lines 142-189)

`ingestContent` runs a sequence of `session.run` calls — the node batches
(size 100) followed by the relationship batches (size 50) — inside ONE
`try { ... } catch`.  A rejected write therefore jumps out of the loops into
the `catch`.  `ingestRunPlan` is the full sequence of batch writes the code
intends, and `ingestAttempted` the prefix actually attempted when the `k`-th
write fails iff `fails k` holds. -/

/-- The batch payload of one `session.run` call of `ingestContent`. -/
inductive IngestBatch where
  | nodes (batch : List NormItem)
  | rels (batch : List NormItem)
  deriving DecidableEq

/-- The planned sequence of batch writes. -/
def ingestRunPlan (content : List (Option RawItem)) : List IngestBatch :=
  (chunksOf 100 (validContent content)).map .nodes ++
    (chunksOf 50 ((validContent content).filter isHeadingType)).map .rels

/-- The prefix of planned writes attempted before control reaches the
`catch`: the write at (global) index `i` is attempted, and is the last one
attempted if `fails i`. -/
def attemptedWrites (fails : Nat → Bool) : List IngestBatch → Nat → List IngestBatch
  | [], _ => []
  | b :: bs, i => b :: (if fails i then [] else attemptedWrites fails bs (i + 1))

/-- The batch writes `ingestContent` actually attempts under the failure
oracle `fails`. -/
def ingestAttempted (content : List (Option RawItem)) (fails : Nat → Bool) : List IngestBatch :=
  attemptedWrites fails (ingestRunPlan content) 0

/-! ## General helper lemmas -/

theorem stringDataInj {a b : String} (h : a.data = b.data) : a = b := by
  cases a; cases b; exact congrArg String.mk h

theorem chunksOfGo_fuel_irrel (n : Nat) :
    ∀ (fuel fuel' : Nat) (l : List α), l.length ≤ fuel → l.length ≤ fuel' →
      chunksOfGo n fuel l = chunksOfGo n fuel' l := by
  intro fuel
  induction fuel with
  | zero =>
    intro fuel' l hl hl'
    obtain rfl : l = [] := List.length_eq_zero.mp (by omega)
    cases fuel' <;> rfl
  | succ fuel ih =>
    intro fuel' l hl hl'
    cases l with
    | nil => cases fuel' <;> rfl
    | cons a t =>
      cases fuel' with
      | zero => simp at hl'
      | succ fuel' =>
        simp only [chunksOfGo]
        rcases Nat.eq_zero_or_pos n with rfl | hn
        · simp
        · rw [if_neg (by omega), if_neg (by omega)]
          have hd : ((a :: t).drop n).length ≤ fuel := by
            simp only [List.length_drop, List.length_cons]
            simp only [List.length_cons] at hl
            omega
          have hd' : ((a :: t).drop n).length ≤ fuel' := by
            simp only [List.length_drop, List.length_cons]
            simp only [List.length_cons] at hl'
            omega
          rw [ih fuel' _ hd hd']

theorem chunksOf_nil (n : Nat) : chunksOf n ([] : List α) = [] := rfl

theorem chunksOf_cons {n : Nat} (hn : 0 < n) (a : α) (l : List α) :
    chunksOf n (a :: l) = (a :: l).take n :: chunksOf n ((a :: l).drop n) := by
  show chunksOfGo n (l.length + 1) (a :: l) = _
  rw [chunksOfGo, if_neg (by omega)]
  congr 1
  exact chunksOfGo_fuel_irrel n l.length ((a :: l).drop n).length _
    (by simp; omega) le_rfl

theorem chunksOf_mem_length_le {n : Nat} {l : List α} :
    ∀ b ∈ chunksOf n l, b.length ≤ n := by
  rcases Nat.eq_zero_or_pos n with rfl | hn
  · cases l <;> simp [chunksOf, chunksOfGo]
  · suffices h : ∀ (N : Nat) (l : List α), l.length ≤ N → ∀ b ∈ chunksOf n l, b.length ≤ n from
      h l.length l le_rfl
    intro N
    induction N with
    | zero =>
      intro l hl
      obtain rfl : l = [] := List.length_eq_zero.mp (by omega)
      simp [chunksOf_nil]
    | succ N ih =>
      intro l hl b hb
      cases l with
      | nil => simp [chunksOf_nil] at hb
      | cons a t =>
        rw [chunksOf_cons hn] at hb
        rcases List.mem_cons.mp hb with rfl | hb'
        · simp
        · exact ih ((a :: t).drop n) (by simp at hl ⊢; omega) b hb'

theorem chunksOf_flatten {n : Nat} (hn : 0 < n) (l : List α) :
    (chunksOf n l).flatten = l := by
  suffices h : ∀ (N : Nat) (l : List α), l.length ≤ N → (chunksOf n l).flatten = l from
    h l.length l le_rfl
  intro N
  induction N with
  | zero =>
    intro l hl
    obtain rfl : l = [] := List.length_eq_zero.mp (by omega)
    simp [chunksOf_nil]
  | succ N ih =>
    intro l hl
    cases l with
    | nil => simp [chunksOf_nil]
    | cons a t =>
      rw [chunksOf_cons hn, List.flatten_cons,
        ih ((a :: t).drop n) (by simp at hl ⊢; omega), List.take_append_drop]

theorem foldl_chunksOf {n : Nat} (hn : 0 < n) (f : β → α → β) (l : List α) (b : β) :
    (chunksOf n l).foldl (fun acc batch => batch.foldl f acc) b = l.foldl f b := by
  conv_rhs => rw [← chunksOf_flatten hn l]
  rw [List.foldl_flatten]

theorem chunksOf_length_succ (m : Nat) (l : List α) :
    (chunksOf (m + 1) l).length = (l.length + m) / (m + 1) := by
  suffices h : ∀ (N : Nat) (l : List α), l.length ≤ N →
      (chunksOf (m + 1) l).length = (l.length + m) / (m + 1) from h l.length l le_rfl
  intro N
  induction N with
  | zero =>
    intro l hl
    obtain rfl : l = [] := List.length_eq_zero.mp (by omega)
    simp only [chunksOf_nil, List.length_nil, Nat.zero_add]
    rw [Nat.div_eq_of_lt (by omega)]
  | succ N ih =>
    intro l hl
    cases l with
    | nil =>
      simp only [chunksOf_nil, List.length_nil, Nat.zero_add]
      rw [Nat.div_eq_of_lt (by omega)]
    | cons a t =>
      rw [chunksOf_cons (by omega)]
      simp only [List.length_cons, List.drop_succ_cons]
      have hdl : (t.drop m).length = t.length - m := by simp
      have hrec := ih (t.drop m) (by simp at hl ⊢; omega)
      rw [hrec, hdl]
      have hr : t.length + 1 + m = t.length + (m + 1) := by omega
      rw [hr, Nat.add_div_right _ (by omega)]
      rcases le_or_lt t.length m with h | h
      · rw [Nat.sub_eq_zero_of_le h, Nat.div_eq_of_lt (by omega), Nat.div_eq_of_lt (by omega)]
      · rw [Nat.sub_add_cancel (by omega)]

theorem chunksOf_length {n : Nat} (hn : 0 < n) (l : List α) :
    (chunksOf n l).length = (l.length + n - 1) / n := by
  obtain ⟨m, rfl⟩ : ∃ m, n = m + 1 := ⟨n - 1, by omega⟩
  have h : l.length + (m + 1) - 1 = l.length + m := by omega
  rw [h, chunksOf_length_succ]

theorem mem_of_mem_chunksOf {n : Nat} {l : List α} {b : List α} {x : α}
    (hb : b ∈ chunksOf n l) (hx : x ∈ b) : x ∈ l := by
  rcases Nat.eq_zero_or_pos n with rfl | hn
  · cases l <;> simp [chunksOf, chunksOfGo] at hb
  · rw [← chunksOf_flatten hn l]
    exact List.mem_flatten.mpr ⟨b, hb, hx⟩

/-! ## C5 — the normalisation filter -/

theorem normItem_eq_some {r : RawItem} {v : NormItem} :
    normItem (some r) = some v ↔
      r.text = JStr.str v.text ∧ v.text.length > 10 ∧ r.type = some v.type ∧
        v.type ∈ graphEligibleTypes ∧ r.url = v.url ∧ v.id = mkId v.url v.text := by
  obtain ⟨text, type, url⟩ := r
  obtain ⟨vid, vtext, vtype, vurl⟩ := v
  cases text with
  | notStr => simp [normItem]
  | str s =>
    cases type with
    | none => simp [normItem]
    | some t =>
      simp only [normItem]
      by_cases h10 : s.length > 10
      · by_cases ht : t ∈ graphEligibleTypes
        · rw [if_pos (by simp [h10, ht])]
          simp only [Option.some.injEq, NormItem.mk.injEq, JStr.str.injEq]
          constructor
          · rintro ⟨hid, hs, htv, hurl⟩
            subst hs; subst htv; subst hurl
            exact ⟨rfl, h10, rfl, ht, rfl, hid.symm⟩
          · rintro ⟨hs, -, htv, -, hurl, hid⟩
            subst hs; subst htv; subst hurl
            exact ⟨hid.symm, rfl, rfl, rfl⟩
        · rw [if_neg (by simp [ht])]
          constructor
          · intro h
            exact Option.noConfusion h
          · rintro ⟨hs, -, htv, htv', -, -⟩
            injection htv with htv
            subst htv
            exact absurd htv' ht
      · rw [if_neg (by simp [h10])]
        constructor
        · intro h
          exact Option.noConfusion h
        · rintro ⟨hs, h10', -, -, -, -⟩
          injection hs with hs
          subst hs
          omega

/-- C5: an item yields a normalized record iff its text is a non-empty string
longer than 10 characters and its type is graph-eligible, and the record's id
is the pure function `mkId` of `(url, text)` (so normalizing identical input
twice yields an identical id). -/
theorem normalization_is_deterministic_filter (content : List (Option RawItem)) (v : NormItem) :
    v ∈ validContent content ↔
      ∃ r : RawItem, some r ∈ content ∧
        r.text = JStr.str v.text ∧ v.text ≠ "" ∧ v.text.length > 10 ∧
        r.type = some v.type ∧ v.type ∈ graphEligibleTypes ∧
        r.url = v.url ∧ v.id = mkId v.url v.text := by
  rw [validContent, List.mem_filterMap]
  constructor
  · rintro ⟨o, ho, hsome⟩
    cases o with
    | none => simp [normItem] at hsome
    | some r =>
      obtain ⟨h1, h2, h3, h4, h5, h6⟩ := normItem_eq_some.mp hsome
      refine ⟨r, ho, h1, ?_, h2, h3, h4, h5, h6⟩
      intro hempty
      rw [hempty] at h2
      simp at h2
  · rintro ⟨r, hr, h1, -, h2, h3, h4, h5, h6⟩
    exact ⟨some r, hr, normItem_eq_some.mpr ⟨h1, h2, h3, h4, h5, h6⟩⟩

/-! ## C10 — index upload batching -/

theorem validDocumentsFrom_text_le (now : Nat → Nat) :
    ∀ (content : List (Option RawItem)) (i : Nat),
      ∀ d ∈ validDocumentsFrom now i content, d.text.length ≤ 1000 := by
  intro content
  induction content with
  | nil => intro i d hd; simp [validDocumentsFrom] at hd
  | cons it rest ih =>
    intro i d hd
    match it with
    | none => exact ih i d hd
    | some ⟨.notStr, ty, url⟩ => exact ih i d hd
    | some ⟨.str s, ty, url⟩ =>
      rw [validDocumentsFrom] at hd
      by_cases hs : s ≠ ""
      · rw [if_pos hs] at hd
        rcases List.mem_cons.mp hd with rfl | hd'
        · show (String.mk (s.data.take 1000)).length ≤ 1000
          show (s.data.take 1000).length ≤ 1000
          simp
        · exact ih (i + 1) d hd'
      · rw [if_neg hs] at hd
        exact ih i d hd

/-- The sample 35,000-document payload of Scenario D. -/
def sampleUploadItem : Option RawItem := some ⟨.str "hello world", some "p", "u"⟩

theorem validDocumentsFrom_replicate_length (now : Nat → Nat) :
    ∀ (k i : Nat),
      (validDocumentsFrom now i (List.replicate k sampleUploadItem)).length = k := by
  intro k
  induction k with
  | zero => intro i; simp [validDocumentsFrom]
  | succ k ih =>
    intro i
    rw [List.replicate_succ, sampleUploadItem, validDocumentsFrom,
      if_pos (by decide : ("hello world" : String) ≠ "")]
    simp only [List.length_cons]
    rw [← sampleUploadItem, ih (i + 1)]

/-- C10: every upload batch issued by `uploadToAzureSearch` contains at most
`MAX_BATCH_SIZE = 30000` documents, every document's text is truncated to at
most 1000 characters, and publishing 35,000 valid documents issues exactly 2
upload batches. -/
theorem upload_batching_bounds (now : Nat → Nat) (content : List (Option RawItem)) :
    (∀ b ∈ uploadBatches now content, b.length ≤ MAX_BATCH_SIZE ∧
      ∀ d ∈ b, d.text.length ≤ 1000) ∧
    (uploadBatches now (List.replicate 35000 sampleUploadItem)).length = 2 := by
  constructor
  · intro b hb
    refine ⟨chunksOf_mem_length_le b hb, ?_⟩
    intro d hd
    exact validDocumentsFrom_text_le now content 0 d (mem_of_mem_chunksOf hb hd)
  · rw [uploadBatches, chunksOf_length (by rw [MAX_BATCH_SIZE]; omega), validDocuments,
      validDocumentsFrom_replicate_length now 35000 0]
    rfl

/-- Witness: the bounds evaluated on a concrete one-document upload. -/
theorem upload_batching_bounds_witness :
    [(⟨"doc-0-0", "hello world", "u", "p"⟩ : SearchDoc)].length ≤ MAX_BATCH_SIZE ∧
      ∀ d ∈ [(⟨"doc-0-0", "hello world", "u", "p"⟩ : SearchDoc)], d.text.length ≤ 1000 :=
  (upload_batching_bounds (fun _ => 0) [sampleUploadItem]).1
    [⟨"doc-0-0", "hello world", "u", "p"⟩] (by decide)

/-! ## C2 — batch-failure behaviour of `ingestContent` -/

theorem attemptedWrites_cut (fails : Nat → Bool) :
    ∀ (plan : List IngestBatch) (i k : Nat), (∀ j, j < k → fails (i + j) = false) →
      fails (i + k) = true → attemptedWrites fails plan i = plan.take (k + 1) := by
  intro plan
  induction plan with
  | nil => intro i k h1 h2; simp [attemptedWrites]
  | cons b bs ih =>
    intro i k h1 h2
    rw [attemptedWrites]
    cases k with
    | zero =>
      rw [if_pos (by simpa using h2)]
      simp
    | succ k =>
      rw [if_neg (by simpa using h1 0 (by omega))]
      rw [List.take_succ_cons]
      congr 1
      refine ih (i + 1) k (fun j hj => ?_) (by rw [show i + 1 + k = i + (k + 1) by omega]; exact h2)
      rw [show i + 1 + j = i + (j + 1) by omega]
      exact h1 (j + 1) (by omega)

theorem attemptedWrites_all (fails : Nat → Bool) :
    ∀ (plan : List IngestBatch) (i : Nat), (∀ j, fails j = false) →
      attemptedWrites fails plan i = plan := by
  intro plan
  induction plan with
  | nil => intro i h; rfl
  | cons b bs ih =>
    intro i h
    rw [attemptedWrites, if_neg (by simp [h i]), ih (i + 1) h]

/-- A sample content list producing two node batches (101 valid paragraph
items, no headings). -/
def twoBatchContent : List (Option RawItem) :=
  List.replicate 101 (some ⟨.str "abcdefghijkl", some "p", "u"⟩)

/-- The failure oracle that rejects exactly the first batch write. -/
def failsFirstWrite : Nat → Bool := fun i => i == 0

theorem validContent_twoBatchContent :
    validContent twoBatchContent =
      List.replicate 101 ⟨mkId "u" "abcdefghijkl", "abcdefghijkl", "p", "u"⟩ := by
  rw [twoBatchContent, validContent]
  have h : ∀ k : Nat, List.filterMap normItem
      (List.replicate k (some ⟨.str "abcdefghijkl", some "p", "u"⟩)) =
      List.replicate k ⟨mkId "u" "abcdefghijkl", "abcdefghijkl", "p", "u"⟩ := by
    intro k
    induction k with
    | zero => rfl
    | succ k ih =>
      rw [List.replicate_succ, List.replicate_succ, List.filterMap_cons]
      rw [show normItem (some ⟨.str "abcdefghijkl", some "p", "u"⟩) =
        some ⟨mkId "u" "abcdefghijkl", "abcdefghijkl", "p", "u"⟩ by
          rw [normItem]; rfl]
      rw [ih]
  exact h 101

theorem ingestRunPlan_twoBatchContent_length : (ingestRunPlan twoBatchContent).length = 2 := by
  rw [ingestRunPlan, validContent_twoBatchContent]
  rw [List.length_append, List.length_map, List.length_map,
    chunksOf_length (by omega), List.filter_replicate]
  rw [show isHeadingType ⟨mkId "u" "abcdefghijkl", "abcdefghijkl", "p", "u"⟩ = false from rfl]
  simp [chunksOf_nil]

/-- C2 counterexample: with 101 valid items (two node batches) and the first
batch write failing, `ingestContent` attempts only 1 of the 2 planned batch
writes — the batch after the failed one is NOT attempted, because the `catch`
sits outside the batch loops. -/
theorem ingest_batch_failure_not_isolated :
    ingestAttempted twoBatchContent failsFirstWrite ≠ ingestRunPlan twoBatchContent := by
  intro h
  have h1 : (ingestAttempted twoBatchContent failsFirstWrite).length = 1 := by
    rw [ingestAttempted, attemptedWrites_cut failsFirstWrite _ 0 0 (by omega) (by rfl)]
    rw [List.length_take, ingestRunPlan_twoBatchContent_length]
    rfl
  rw [h, ingestRunPlan_twoBatchContent_length] at h1
  omega

/-- C2 (corrected): a failing batch write is contained inside `ingestContent`
(the surrounding `try`/`catch` logs it and the call returns normally), but it
aborts the rest of the run plan: exactly the batches up to and including the
first failing write are attempted, and every batch after it is skipped.  When
no write fails, the whole plan is attempted. -/
theorem ingest_batch_failure_aborts_tail (content : List (Option RawItem)) (fails : Nat → Bool)
    (k : Nat) (hk : fails k = true) (hmin : ∀ j, j < k → fails j = false) :
    ingestAttempted content fails = (ingestRunPlan content).take (k + 1) := by
  rw [ingestAttempted]
  exact attemptedWrites_cut fails _ 0 k (by simpa using hmin) (by simpa using hk)

/-- Witness: the corrected claim evaluated at the two-batch payload with the
first write failing — only the first planned batch is attempted. -/
theorem ingest_batch_failure_aborts_tail_witness :
    ingestAttempted twoBatchContent failsFirstWrite =
      (ingestRunPlan twoBatchContent).take 1 :=
  ingest_batch_failure_aborts_tail twoBatchContent failsFirstWrite 0 rfl (by omega)

/-! ## C3 — query-time degradation -/

/-- C3 counterexample: with the graph source healthy, a failure of the lexical
search alone flips the request from a 200 answer to a 500 error — the lexical
source does NOT degrade to an empty contribution. -/
theorem chat_lexical_failure_fails_request :
    chatHandler (some "q") (.error ()) (.ok ()) (fun _ _ => 0) emptyGraph
        (fun _ => .ok "answer") = .serverError ∧
      chatHandler (some "q") (.ok []) (.ok ()) (fun _ _ => 0) emptyGraph
        (fun _ => .ok "answer") ≠ .serverError := by
  constructor
  · decide
  · decide

/-- C3 (corrected): only the graph source degrades gracefully — a failed graph
read contributes exactly what an empty graph would (an empty relation set) and
the request proceeds; a failed lexical search makes the whole request answer
500. -/
theorem chat_source_failure_behaviour (msg : String) (hmsg : msg ≠ "")
    (searchOutcome : Except Unit (List SearchHit)) (graphOutcome : Except Unit Unit)
    (sim : String → String → ℚ) (g : Graph) (llm : String → Except Unit String) :
    chatHandler (some msg) searchOutcome (.error ()) sim g llm
        = chatHandler (some msg) searchOutcome (.ok ()) sim emptyGraph llm ∧
      chatHandler (some msg) (.error ()) graphOutcome sim g llm = .serverError := by
  have hempty : queryRelatedConcepts sim msg emptyGraph = [] := rfl
  constructor
  · simp only [chatHandler, if_neg hmsg]
    cases searchOutcome with
    | error e => rfl
    | ok hits =>
      simp only [graphContribution, hempty]
  · simp only [chatHandler, if_neg hmsg]

/-- Witness: the corrected behaviour evaluated at a concrete request. -/
theorem chat_source_failure_behaviour_witness :
    chatHandler (some "q") (.ok []) (.error ()) (fun _ _ => 0) emptyGraph
        (fun _ => .ok "answer")
      = chatHandler (some "q") (.ok []) (.ok ()) (fun _ _ => 0) emptyGraph
          (fun _ => .ok "answer") ∧
    chatHandler (some "q") (.error ()) (.ok ()) (fun _ _ => 0) emptyGraph
        (fun _ => .ok "answer") = .serverError :=
  ⟨(chat_source_failure_behaviour "q" (by decide) (.ok []) (.ok ()) (fun _ _ => 0) emptyGraph
      (fun _ => .ok "answer")).1,
    (chat_source_failure_behaviour "q" (by decide) (.ok []) (.ok ()) (fun _ _ => 0) emptyGraph
      (fun _ => .ok "answer")).2⟩

/-! ## C4 / C9 / C8 — the crawl loop -/

theorem extractPageContent_frontier (render : String → RenderResult) (url : String)
    (st : RunState) :
    (extractPageContent render url st).1.visitedUrls = st.visitedUrls ∧
      (extractPageContent render url st).1.queue = st.queue := by
  cases h : render url <;> simp [extractPageContent, h]

theorem crawlStep_visited (render : String → RenderResult)
    (linksOf : String → Option (List String)) (prioritize : List String → List String)
    (normalizeUrl : String → String) (st : RunState) :
    (crawlStep render linksOf prioritize normalizeUrl st).visitedUrls = st.visitedUrls ∨
      ∃ u, (crawlStep render linksOf prioritize normalizeUrl st).visitedUrls
        = st.visitedUrls ++ [u] := by
  cases hq : st.queue with
  | nil => left; rw [crawlStep, hq]
  | cons cur rest =>
    by_cases hc : shouldCrawl st.visitedUrls cur
    · right
      refine ⟨cur, ?_⟩
      cases hr : render cur <;> cases hl : linksOf cur <;>
        simp [crawlStep, hq, hc, extractPageContent, hr, hl] <;> split <;> simp
    · left
      simp [crawlStep, hq, hc]

theorem crawlStep_visited_mem (render : String → RenderResult)
    (linksOf : String → Option (List String)) (prioritize : List String → List String)
    (normalizeUrl : String → String) (st : RunState) (v : String) (hv : v ∈ st.visitedUrls) :
    v ∈ (crawlStep render linksOf prioritize normalizeUrl st).visitedUrls := by
  rcases crawlStep_visited render linksOf prioritize normalizeUrl st with h | ⟨u, h⟩ <;>
    rw [h] <;> simp [hv]

theorem crawlStep_visited_length (render : String → RenderResult)
    (linksOf : String → Option (List String)) (prioritize : List String → List String)
    (normalizeUrl : String → String) (st : RunState) :
    (crawlStep render linksOf prioritize normalizeUrl st).visitedUrls.length
      ≤ st.visitedUrls.length + 1 := by
  rcases crawlStep_visited render linksOf prioritize normalizeUrl st with h | ⟨u, h⟩ <;>
    rw [h] <;> simp

theorem scrapeLoop_visited_le (render : String → RenderResult)
    (linksOf : String → Option (List String)) (prioritize : List String → List String)
    (normalizeUrl : String → String) :
    ∀ (fuel : Nat) (st : RunState), st.visitedUrls.length ≤ MAX_PAGES →
      (scrapeLoop render linksOf prioritize normalizeUrl fuel st).visitedUrls.length
        ≤ MAX_PAGES := by
  intro fuel
  induction fuel with
  | zero => intro st h; exact h
  | succ fuel ih =>
    intro st h
    rw [scrapeLoop]
    split
    · rename_i hguard
      apply ih
      have hlt : st.visitedUrls.length < MAX_PAGES := by
        simp only [Bool.and_eq_true, decide_eq_true_eq] at hguard
        exact hguard.2
      have := crawlStep_visited_length render linksOf prioritize normalizeUrl st
      omega
    · exact h

theorem scrapeLoop_visited_mem (render : String → RenderResult)
    (linksOf : String → Option (List String)) (prioritize : List String → List String)
    (normalizeUrl : String → String) :
    ∀ (fuel : Nat) (st : RunState) (v : String), v ∈ st.visitedUrls →
      v ∈ (scrapeLoop render linksOf prioritize normalizeUrl fuel st).visitedUrls := by
  intro fuel
  induction fuel with
  | zero => intro st v h; exact h
  | succ fuel ih =>
    intro st v h
    rw [scrapeLoop]
    split
    · exact ih _ v (crawlStep_visited_mem render linksOf prioritize normalizeUrl st v h)
    · exact h

/-- `visitedUrls.has(url)` forces `shouldCrawl` to `false`. -/
theorem shouldCrawl_of_visited {visitedUrls : List String} {u : String}
    (h : u ∈ visitedUrls) : shouldCrawl visitedUrls u = false := by
  simp [shouldCrawl, h]

/-- C4: for every crawl run (any fuel, any rendering/link/sort/normalisation
oracles) the visited count never exceeds `MAX_PAGES = 950`, and once the
visited count has reached the ceiling the loop stops immediately — even if
the queue still holds URLs. -/
theorem crawl_visited_ceiling (render : String → RenderResult)
    (linksOf : String → Option (List String)) (prioritize : List String → List String)
    (normalizeUrl : String → String) (fuel : Nat) :
    (scrapeLoop render linksOf prioritize normalizeUrl fuel crawlStartState).visitedUrls.length
        ≤ MAX_PAGES ∧
      ∀ st : RunState, MAX_PAGES ≤ st.visitedUrls.length →
        scrapeLoop render linksOf prioritize normalizeUrl fuel st = st := by
  constructor
  · exact scrapeLoop_visited_le render linksOf prioritize normalizeUrl fuel crawlStartState
      (by simp [crawlStartState, MAX_PAGES])
  · intro st h
    cases fuel with
    | zero => rfl
    | succ fuel =>
      rw [scrapeLoop, if_neg]
      simp only [Bool.and_eq_true, decide_eq_true_eq, not_and]
      intro hq
      omega

/-- Witness: a state already holding 950 visited URLs is left untouched even
though its queue is non-empty. -/
theorem crawl_visited_ceiling_witness :
    scrapeLoop (fun _ => RenderResult.fail) (fun _ => none) id id 5
        ⟨List.replicate 950 "u", [BASE_URL], []⟩ = ⟨List.replicate 950 "u", [BASE_URL], []⟩ :=
  (crawl_visited_ceiling (fun _ => RenderResult.fail) (fun _ => none) id id 5).2
    ⟨List.replicate 950 "u", [BASE_URL], []⟩
    (by show MAX_PAGES ≤ (List.replicate 950 "u").length
        rw [List.length_replicate]
        exact Nat.le_refl 950)

/-- C9: the visited set only grows across the crawl loop, and once a URL is
in the visited set, `shouldCrawl` answers `false` for it at every later point
of the run — so a visited URL is never admitted (hence never processed)
again. -/
theorem crawl_no_revisit (render : String → RenderResult)
    (linksOf : String → Option (List String)) (prioritize : List String → List String)
    (normalizeUrl : String → String) (fuel : Nat) (st : RunState) (u : String) :
    (∀ v ∈ st.visitedUrls,
        v ∈ (scrapeLoop render linksOf prioritize normalizeUrl fuel st).visitedUrls) ∧
      (u ∈ st.visitedUrls →
        u ∈ (scrapeLoop render linksOf prioritize normalizeUrl fuel st).visitedUrls ∧
          shouldCrawl (scrapeLoop render linksOf prioritize normalizeUrl fuel st).visitedUrls u
            = false) := by
  refine ⟨fun v hv => scrapeLoop_visited_mem render linksOf prioritize normalizeUrl fuel st v hv,
    fun hu => ?_⟩
  have hmem := scrapeLoop_visited_mem render linksOf prioritize normalizeUrl fuel st u hu
  exact ⟨hmem, shouldCrawl_of_visited hmem⟩

/-- Witness: a URL already visited stays visited and inadmissible. -/
theorem crawl_no_revisit_witness :
    "u" ∈ (scrapeLoop (fun _ => RenderResult.fail) (fun _ => none) id id 3
        ⟨["u"], [], []⟩).visitedUrls ∧
      shouldCrawl (scrapeLoop (fun _ => RenderResult.fail) (fun _ => none) id id 3
        ⟨["u"], [], []⟩).visitedUrls "u" = false :=
  (crawl_no_revisit (fun _ => RenderResult.fail) (fun _ => none) id id 3
    ⟨["u"], [], []⟩ "u").2 (by decide)

/-- C8 counterexample: a successful navigation makes `extractPageContent` push
the raw `{url, html}` record onto the `scrapedData` crawl-run accumulator, so
the run state is NOT left unchanged. -/
theorem extract_mutates_run_state :
    (extractPageContent (fun _ => RenderResult.ok "h" []) "u" crawlStartState).1
      ≠ crawlStartState := by
  decide

/-- C8 (corrected): `extractPageContent` never touches the frontier (visited
set and queue are returned verbatim); its only state effect is appending the
single raw `{url, html}` record to `scrapedData`; on navigation failure it
changes nothing and returns `[]`, and on a wait/evaluate failure it returns
`[]` as well. -/
theorem extract_frame_conditions (render : String → RenderResult) (url : String)
    (st : RunState) :
    (extractPageContent render url st).1.visitedUrls = st.visitedUrls ∧
      (extractPageContent render url st).1.queue = st.queue ∧
      ((extractPageContent render url st).1.scrapedData = st.scrapedData ∨
        ∃ html, (extractPageContent render url st).1.scrapedData
          = st.scrapedData ++ [ScrapedItem.page url html]) ∧
      (render url = .fail → extractPageContent render url st = (st, [])) ∧
      (∀ html, render url = .failedEval html →
        (extractPageContent render url st).2 = []) := by
  cases h : render url <;> simp [extractPageContent, h]

/-- Witness: the frame conditions evaluated on a failing navigation. -/
theorem extract_frame_conditions_witness :
    extractPageContent (fun _ => RenderResult.fail) "u" crawlStartState
      = (crawlStartState, []) :=
  (extract_frame_conditions (fun _ => RenderResult.fail) "u" crawlStartState).2.2.2.1 rfl

/-! ## C7 — graph query output shape -/

theorem queryRows_simv {sim : String → String → ℚ} {q : String} {g : Graph} {r : QRow}
    (hr : r ∈ queryRows sim q g) : ∃ a b, r.simv = sim a b := by
  rw [queryRows, List.mem_filterMap] at hr
  obtain ⟨e, he, hsome⟩ := hr
  split at hsome
  · split at hsome
    · obtain rfl := Option.some_inj.mp hsome
      exact ⟨_, _, rfl⟩
    · exact Option.noConfusion hsome
  · exact Option.noConfusion hsome

theorem sortedQueryRows_mem {sim : String → String → ℚ} {q : String} {g : Graph} {r : QRow}
    (hr : r ∈ sortedQueryRows sim q g) :
    r ∈ queryRows sim q g ∧ (3 : ℚ) / 5 < r.simv := by
  rw [sortedQueryRows] at hr
  have h1 := List.mem_of_mem_take hr
  have h2 := (List.perm_insertionSort simGE _).subset h1
  rw [List.mem_filter] at h2
  exact ⟨h2.1, by simpa using h2.2⟩

theorem round2_bounds {x : ℚ} (h1 : 3 / 5 < x) (h2 : x ≤ 1) :
    (3 : ℚ) / 5 ≤ round2 x ∧ round2 x ≤ 1 := by
  rw [round2]
  constructor
  · have h60 : (60 : ℤ) ≤ ⌊x * 100 + 1 / 2⌋ := Int.le_floor.mpr (by push_cast; linarith)
    have hc : (60 : ℚ) ≤ (⌊x * 100 + 1 / 2⌋ : ℚ) := by exact_mod_cast h60
    linarith
  · have h101 : ⌊x * 100 + 1 / 2⌋ < 101 := Int.floor_lt.mpr (by push_cast; linarith)
    have hc : (⌊x * 100 + 1 / 2⌋ : ℚ) ≤ 100 := by exact_mod_cast Int.lt_add_one_iff.mp h101
    linarith

/-- C7 (amended): `queryRelatedConcepts` returns at most 10 relations; the
underlying rows are ordered by descending similarity, every kept row's raw
similarity is strictly above 0.6; and — provided the external similarity
function stays in `[0, 1]` — every reported (two-decimal-rounded) confidence
lies in the closed interval `[0.6, 1.0]`. -/
theorem query_output_shape (sim : String → String → ℚ) (q : String) (g : Graph)
    (hsim : ∀ a b, 0 ≤ sim a b ∧ sim a b ≤ 1) :
    (queryRelatedConcepts sim q g).length ≤ 10 ∧
      List.Sorted simGE (sortedQueryRows sim q g) ∧
      (∀ r ∈ sortedQueryRows sim q g, (3 : ℚ) / 5 < r.simv) ∧
      (∀ rel ∈ queryRelatedConcepts sim q g,
        (3 : ℚ) / 5 ≤ rel.confidence ∧ rel.confidence ≤ 1) := by
  refine ⟨?_, ?_, ?_, ?_⟩
  · rw [queryRelatedConcepts, List.length_map, sortedQueryRows]
    exact List.length_take_le 10 _
  · exact List.Pairwise.sublist (List.take_sublist 10 _)
      (List.sorted_insertionSort simGE _)
  · intro r hr
    exact (sortedQueryRows_mem hr).2
  · intro rel hrel
    rw [queryRelatedConcepts, List.mem_map] at hrel
    obtain ⟨r, hr, rfl⟩ := hrel
    obtain ⟨hrq, hgt⟩ := sortedQueryRows_mem hr
    obtain ⟨a, b, hab⟩ := queryRows_simv hrq
    have hle : r.simv ≤ 1 := by rw [hab]; exact (hsim a b).2
    exact round2_bounds hgt hle

/-- Witness: the output-shape bounds at a constant similarity of 1. -/
theorem query_output_shape_witness :
    (queryRelatedConcepts (fun _ _ => 1) "" emptyGraph).length ≤ 10 ∧
      List.Sorted simGE (sortedQueryRows (fun _ _ => 1) "" emptyGraph) ∧
      (∀ r ∈ sortedQueryRows (fun _ _ => 1) "" emptyGraph, (3 : ℚ) / 5 < r.simv) ∧
      (∀ rel ∈ queryRelatedConcepts (fun _ _ => 1) "" emptyGraph,
        (3 : ℚ) / 5 ≤ rel.confidence ∧ rel.confidence ≤ 1) :=
  query_output_shape (fun _ _ => 1) "" emptyGraph (fun _ _ => by norm_num)

/-- A two-node store whose single `RELATED_TO` edge scores 0.604 (a value the
Jaro–Winkler similarity attains, e.g. for strings of lengths 10 and 11 with 6
matches, 2 transpositions and no common prefix). -/
def g604 : Graph :=
  ⟨[⟨"a", "xxxxxxxxxxx", "h2", "u"⟩, ⟨"b", "yyyyyyyyyyy", "p", "u"⟩],
    [⟨"a", "b", "section"⟩]⟩

def sim604 : String → String → ℚ := fun _ _ => 151 / 250

def row604 : QRow :=
  ⟨⟨"a", "xxxxxxxxxxx", "h2", "u"⟩, ⟨"b", "yyyyyyyyyyy", "p", "u"⟩, "section", 151 / 250⟩

/-- C7 counterexample: a raw similarity of 0.604 passes the `> 0.6` filter but
`toFixed(2)` rounds the reported confidence down to exactly 0.60, which does
NOT lie in the open-below interval `(0.6, 1.0]` the claim asserts. -/
theorem query_confidence_rounds_to_lower_bound :
    queryRelatedConcepts sim604 "x" g604
        = [⟨"xxxxxxxxxxx", "section", "yyyyyyyyyyy", "u", "u", 3 / 5⟩] ∧
      ¬((3 : ℚ) / 5 < 3 / 5) := by
  constructor
  · have h1 : queryRows sim604 "x" g604 = [row604] := rfl
    have h2 : sortedQueryRows sim604 "x" g604 = [row604] := by
      rw [sortedQueryRows, h1, List.filter_cons, List.filter_nil,
        if_pos (decide_eq_true (by norm_num [row604, sim604] : (3 : ℚ) / 5 < row604.simv))]
      simp [List.insertionSort]
    rw [queryRelatedConcepts, h2, List.map_cons, List.map_nil]
    have hconf : round2 row604.simv = 3 / 5 := by norm_num [round2, row604]
    rw [hconf]
    rfl
  · norm_num

/-! ## C1 — RELATED_TO edges stay within one URL

The edge-phase `WHERE other.url = n.url` clause ensures new edges are created
same-URL only; the node-phase `SET` can rewrite a node's `url`, but a node's
id embeds the url (everything before the LAST `'-'`, since the sanitised text
part is dash-free), so merging by id can never move a node to a different
url.  Together these give the invariant on every reachable graph. -/

theorem setProps_id (item : NormItem) (n : Node) : (setProps item n).id = n.id := by
  rw [setProps]; split <;> rfl

theorem sanitizeChar_ne_dash (c : Char) : sanitizeChar c ≠ '-' := by
  rw [sanitizeChar]
  split
  · rename_i h
    intro hc
    subst hc
    exact absurd h (by decide)
  · decide

theorem dash_not_mem_sanitized (l : List Char) : '-' ∉ l.map sanitizeChar := by
  intro h
  rw [List.mem_map] at h
  obtain ⟨c, -, hc⟩ := h
  exact sanitizeChar_ne_dash c hc

theorem mkId_data (url text : String) :
    (mkId url text).data = url.data ++ '-' :: (text.data.take 50).map sanitizeChar := by
  rw [mkId, String.data_append, String.data_append, List.append_assoc]
  rfl

/-- Splitting a code-unit list at its last dash is unambiguous. -/
theorem sep_inj : ∀ (a b s t : List Char), '-' ∉ s → '-' ∉ t →
    a ++ '-' :: s = b ++ '-' :: t → a = b ∧ s = t := by
  intro a
  induction a with
  | nil =>
    intro b s t hs ht h
    cases b with
    | nil => exact ⟨rfl, by simpa using h⟩
    | cons x b =>
      simp only [List.nil_append, List.cons_append, List.cons.injEq] at h
      obtain ⟨rfl, h2⟩ := h
      exact absurd (by rw [h2]; exact List.mem_append_right b (List.mem_cons_self _ _)) hs
  | cons x a ih =>
    intro b s t hs ht h
    cases b with
    | nil =>
      simp only [List.cons_append, List.nil_append, List.cons.injEq] at h
      obtain ⟨rfl, h2⟩ := h
      exact absurd (by rw [← h2]; exact List.mem_append_right a (List.mem_cons_self _ _)) ht
    | cons y b =>
      simp only [List.cons_append, List.cons.injEq] at h
      obtain ⟨rfl, h2⟩ := h
      obtain ⟨rfl, rfl⟩ := ih b s t hs ht h2
      exact ⟨rfl, rfl⟩

/-- An item whose id is the canonical derivation from its url and text. -/
def CoherentItem (it : NormItem) : Prop := it.id = mkId it.url it.text

theorem validContent_coherent {content : List (Option RawItem)} {v : NormItem}
    (hv : v ∈ validContent content) : CoherentItem v := by
  rw [validContent, List.mem_filterMap] at hv
  obtain ⟨o, -, hsome⟩ := hv
  cases o with
  | none => exact Option.noConfusion hsome
  | some r =>
    have h := (normItem_eq_some.mp hsome).2.2.2.2.2
    rw [CoherentItem, h]

/-- Database-level uniqueness of node ids. -/
def NodupIds (g : Graph) : Prop := (g.nodes.map Node.id).Nodup

/-- Every node's id is its url followed by a dash-free tail. -/
def IdCoherent (g : Graph) : Prop :=
  ∀ n ∈ g.nodes, ∃ s : List Char, ('-' ∉ s) ∧ n.id.data = n.url.data ++ '-' :: s

/-- Every edge's endpoints exist and share one url. -/
def EdgesSameUrl (g : Graph) : Prop :=
  ∀ e ∈ g.edges, ∃ ns nt, findNode g e.src = some ns ∧ findNode g e.tgt = some nt ∧
    ns.url = nt.url

def GraphInv (g : Graph) : Prop := NodupIds g ∧ IdCoherent g ∧ EdgesSameUrl g

theorem mergeNode_nodes_ids (g : Graph) (item : NormItem) :
    (mergeNode g item).nodes.map Node.id = g.nodes.map Node.id ∨
      ((mergeNode g item).nodes.map Node.id = g.nodes.map Node.id ++ [item.id] ∧
        item.id ∉ g.nodes.map Node.id) := by
  rw [mergeNode]
  split
  · left
    simp only [List.map_map]
    exact List.map_congr_left (fun n _ => setProps_id item n)
  · right
    refine ⟨by simp, ?_⟩
    rename_i hany
    intro hmem
    apply hany
    rw [List.any_eq_true]
    rw [List.mem_map] at hmem
    obtain ⟨n, hn, hid⟩ := hmem
    exact ⟨n, hn, by simp [hid]⟩

theorem mergeNode_nodupIds {g : Graph} (item : NormItem) (h : NodupIds g) :
    NodupIds (mergeNode g item) := by
  rcases mergeNode_nodes_ids g item with heq | ⟨heq, hnot⟩
  · rw [NodupIds, heq]; exact h
  · rw [NodupIds, heq, List.nodup_append]
    refine ⟨h, List.nodup_singleton _, ?_⟩
    intro x hx hx2
    rw [List.mem_singleton] at hx2
    subst hx2
    exact hnot hx

theorem mergeNode_idCoherent {g : Graph} {item : NormItem} (hcoh : IdCoherent g)
    (hitem : CoherentItem item) : IdCoherent (mergeNode g item) := by
  intro n hn
  rw [mergeNode] at hn
  split at hn <;> simp only at hn
  · rw [List.mem_map] at hn
    obtain ⟨m, hm, rfl⟩ := hn
    obtain ⟨s, hs, hms⟩ := hcoh m hm
    rw [setProps]
    split
    · rename_i hid
      refine ⟨(item.text.data.take 50).map sanitizeChar, dash_not_mem_sanitized _, ?_⟩
      show m.id.data = item.url.data ++ '-' :: _
      rw [hid, hitem, mkId_data]
    · exact ⟨s, hs, hms⟩
  · rcases List.mem_append.mp hn with hm | hm
    · exact hcoh n hm
    · rw [List.mem_singleton] at hm
      subst hm
      refine ⟨(item.text.data.take 50).map sanitizeChar, dash_not_mem_sanitized _, ?_⟩
      show item.id.data = item.url.data ++ '-' :: _
      rw [hitem, mkId_data]

theorem findNode_mergeNode {g : Graph} {item : NormItem} {i : String} {n : Node}
    (hcoh : IdCoherent g) (hitem : CoherentItem item) (hfind : findNode g i = some n) :
    ∃ n' : Node, findNode (mergeNode g item) i = some n' ∧ n'.id = n.id ∧ n'.url = n.url := by
  rw [mergeNode]
  split
  · rw [findNode] at hfind ⊢
    simp only
    rw [List.find?_map]
    have hpred : ((fun m : Node => decide (m.id = i)) ∘ setProps item)
        = fun m : Node => decide (m.id = i) := by
      funext m
      simp [Function.comp, setProps_id]
    rw [hpred, hfind]
    refine ⟨setProps item n, rfl, setProps_id item n, ?_⟩
    rw [setProps]
    split
    · rename_i hid
      have hn_mem := List.mem_of_find?_eq_some hfind
      obtain ⟨s, hs, hns⟩ := hcoh n hn_mem
      have hitem_data : item.id.data
          = item.url.data ++ '-' :: ((item.text.data.take 50).map sanitizeChar) := by
        rw [hitem, mkId_data]
      have heq : n.url.data ++ '-' :: s
          = item.url.data ++ '-' :: ((item.text.data.take 50).map sanitizeChar) := by
        rw [← hns, hid, hitem_data]
      obtain ⟨hurl, -⟩ := sep_inj _ _ _ _ hs (dash_not_mem_sanitized _) heq
      show item.url = n.url
      exact (stringDataInj hurl).symm
    · rfl
  · rw [findNode] at hfind ⊢
    simp only
    rw [List.find?_append, hfind]
    exact ⟨n, rfl, rfl, rfl⟩

theorem mergeNode_edges (g : Graph) (item : NormItem) : (mergeNode g item).edges = g.edges := by
  rw [mergeNode]; split <;> rfl

theorem mergeNode_edgesSameUrl {g : Graph} {item : NormItem} (hcoh : IdCoherent g)
    (hitem : CoherentItem item) (hedges : EdgesSameUrl g) :
    EdgesSameUrl (mergeNode g item) := by
  intro e he
  rw [mergeNode_edges] at he
  obtain ⟨ns, nt, hs, ht, hurl⟩ := hedges e he
  obtain ⟨ns', hs', -, hnsu⟩ := findNode_mergeNode hcoh hitem hs
  obtain ⟨nt', ht', -, hntu⟩ := findNode_mergeNode hcoh hitem ht
  exact ⟨ns', nt', hs', ht', by rw [hnsu, hntu, hurl]⟩

theorem mergeNode_inv {g : Graph} {item : NormItem} (hinv : GraphInv g)
    (hitem : CoherentItem item) : GraphInv (mergeNode g item) :=
  ⟨mergeNode_nodupIds item hinv.1, mergeNode_idCoherent hinv.2.1 hitem,
    mergeNode_edgesSameUrl hinv.2.1 hitem hinv.2.2⟩

theorem mergeEdge_nodes (g : Graph) (e : Edge) : (mergeEdge g e).nodes = g.nodes := by
  rw [mergeEdge]; split <;> rfl

theorem findNode_mergeEdge (g : Graph) (e : Edge) (i : String) :
    findNode (mergeEdge g e) i = findNode g i := by
  rw [findNode, findNode, mergeEdge_nodes]

theorem mergeEdge_mem_iff {g : Graph} {e e' : Edge} :
    e' ∈ (mergeEdge g e).edges ↔ e' ∈ g.edges ∨ e' = e := by
  rw [mergeEdge]
  split
  · rename_i hmem
    exact ⟨Or.inl, fun h => h.elim id (fun h => h ▸ hmem)⟩
  · simp

theorem mergeEdge_mem_self (g : Graph) (e : Edge) : e ∈ (mergeEdge g e).edges :=
  mergeEdge_mem_iff.mpr (Or.inr rfl)

theorem mergeEdge_mem_mono {g : Graph} {e e' : Edge} (h : e' ∈ g.edges) :
    e' ∈ (mergeEdge g e).edges :=
  mergeEdge_mem_iff.mpr (Or.inl h)

theorem edgeCandidates_mem {g : Graph} {n other : Node} (h : other ∈ edgeCandidates g n) :
    other ∈ g.nodes ∧ other.url = n.url := by
  rw [edgeCandidates, List.mem_filter] at h
  refine ⟨h.1, ?_⟩
  have h2 := h.2
  simp only [Bool.and_eq_true, decide_eq_true_eq] at h2
  exact h2.1.1.1.1

theorem find?_id_of_mem_nodup {n : Node} :
    ∀ {l : List Node}, (l.map Node.id).Nodup → n ∈ l →
      l.find? (fun m => m.id = n.id) = some n := by
  intro l
  induction l with
  | nil => intro _ hn; cases hn
  | cons a l ih =>
    intro hd hn
    rcases List.mem_cons.mp hn with rfl | hn'
    · rw [List.find?_cons, show (decide (n.id = n.id)) = true by simp]
    · have hne : ¬(a.id = n.id) := by
        intro h
        rw [List.map_cons, List.nodup_cons] at hd
        exact hd.1 (h ▸ List.mem_map_of_mem Node.id hn')
      rw [List.find?_cons, show (decide (a.id = n.id)) = false by simp [hne]]
      exact ih (by rw [List.map_cons, List.nodup_cons] at hd; exact hd.2) hn'

theorem findNode_of_mem_nodup {g : Graph} {n : Node} (hd : NodupIds g) (hn : n ∈ g.nodes) :
    findNode g n.id = some n :=
  find?_id_of_mem_nodup hd hn

theorem foldl_mergeEdge_nodes (nid ctx : String) :
    ∀ (cands : List Node) (g : Graph),
      (cands.foldl (fun g2 other => mergeEdge g2 ⟨nid, other.id, ctx⟩) g).nodes = g.nodes := by
  intro cands
  induction cands with
  | nil => intro g; rfl
  | cons c cs ih => intro g; rw [List.foldl_cons, ih, mergeEdge_nodes]

theorem ingestEdgesFor_nodes (g : Graph) (h : NormItem) :
    (ingestEdgesFor g h).nodes = g.nodes := by
  rw [ingestEdgesFor]
  split
  · rfl
  · rw [foldl_mergeEdge_nodes]

theorem findNode_ingestEdgesFor (g : Graph) (h : NormItem) (i : String) :
    findNode (ingestEdgesFor g h) i = findNode g i := by
  rw [findNode, findNode, ingestEdgesFor_nodes]

theorem foldl_mergeEdge_edgesSameUrl {n : Node} :
    ∀ (cands : List Node) (g : Graph), NodupIds g → findNode g n.id = some n →
      EdgesSameUrl g → (∀ c ∈ cands, c ∈ g.nodes ∧ c.url = n.url) →
      EdgesSameUrl
        (cands.foldl (fun g2 other => mergeEdge g2 ⟨n.id, other.id, "section"⟩) g) := by
  intro cands
  induction cands with
  | nil => intro g _ _ he _; exact he
  | cons c cs ih =>
    intro g hd hfind he hc
    rw [List.foldl_cons]
    apply ih (mergeEdge g ⟨n.id, c.id, "section"⟩)
    · rw [NodupIds, mergeEdge_nodes]; exact hd
    · rw [findNode_mergeEdge]; exact hfind
    · intro e' he'
      rcases mergeEdge_mem_iff.mp he' with h | rfl
      · obtain ⟨ns, nt, h1, h2, h3⟩ := he e' h
        exact ⟨ns, nt, by rw [findNode_mergeEdge]; exact h1,
          by rw [findNode_mergeEdge]; exact h2, h3⟩
      · obtain ⟨hcmem, hcurl⟩ := hc c (List.mem_cons_self _ _)
        refine ⟨n, c, ?_, ?_, hcurl.symm⟩
        · rw [findNode_mergeEdge]; exact hfind
        · rw [findNode_mergeEdge]; exact findNode_of_mem_nodup hd hcmem
    · intro c' hc'
      obtain ⟨h1, h2⟩ := hc c' (List.mem_cons.mpr (Or.inr hc'))
      exact ⟨by rw [mergeEdge_nodes]; exact h1, h2⟩

theorem ingestEdgesFor_inv {g : Graph} (h : NormItem) (hinv : GraphInv g) :
    GraphInv (ingestEdgesFor g h) := by
  obtain ⟨hd, hcoh, he⟩ := hinv
  refine ⟨?_, ?_, ?_⟩
  · rw [NodupIds, ingestEdgesFor_nodes]; exact hd
  · intro n hn
    rw [ingestEdgesFor_nodes] at hn
    exact hcoh n hn
  · rw [ingestEdgesFor]
    cases hf : findNode g h.id with
    | none => exact he
    | some n =>
      have hn_id : n.id = h.id := by
        have := List.find?_some hf
        simpa using this
      apply foldl_mergeEdge_edgesSameUrl (edgeCandidates g n) g hd (by rw [hn_id]; exact hf) he
      intro c hc
      exact edgeCandidates_mem hc

theorem foldl_mergeNode_inv :
    ∀ (items : List NormItem) (g : Graph), GraphInv g → (∀ it ∈ items, CoherentItem it) →
      GraphInv (items.foldl mergeNode g) := by
  intro items
  induction items with
  | nil => intro g hinv _; exact hinv
  | cons a items ih =>
    intro g hinv hco
    rw [List.foldl_cons]
    exact ih (mergeNode g a) (mergeNode_inv hinv (hco a (List.mem_cons_self _ _)))
      (fun it hit => hco it (List.mem_cons.mpr (Or.inr hit)))

theorem foldl_ingestEdgesFor_inv :
    ∀ (hs : List NormItem) (g : Graph), GraphInv g → GraphInv (hs.foldl ingestEdgesFor g) := by
  intro hs
  induction hs with
  | nil => intro g hinv; exact hinv
  | cons h hs ih =>
    intro g hinv
    rw [List.foldl_cons]
    exact ih (ingestEdgesFor g h) (ingestEdgesFor_inv h hinv)

theorem ingestContent_inv (content : List (Option RawItem)) {g : Graph}
    (hinv : GraphInv g) : GraphInv (ingestContent content g) := by
  rw [ingestContent]
  simp only [ingestNodes, ingestEdges, foldl_chunksOf (by omega : (0:Nat) < 100),
    foldl_chunksOf (by omega : (0:Nat) < 50)]
  apply foldl_ingestEdgesFor_inv
  apply foldl_mergeNode_inv _ _ hinv
  intro it hit
  exact validContent_coherent hit

theorem built_inv {g : Graph} (h : Built g) : GraphInv g := by
  induction h with
  | empty =>
    refine ⟨?_, ?_, ?_⟩
    · rw [NodupIds]; exact List.nodup_nil
    · intro n hn; cases hn
    · intro e he; cases he
  | ingest content g hb ih => exact ingestContent_inv content ih

/-- C1: in every graph built by runs of (the canonical, URL-scoped)
`ingestContent` from an empty store, every `RELATED_TO` edge connects two
nodes with the same `url` — an edge between nodes of different URLs never
appears. -/
theorem related_edges_same_url {g : Graph} (hg : Built g) {e : Edge} (he : e ∈ g.edges)
    {ns nt : Node} (hs : findNode g e.src = some ns) (ht : findNode g e.tgt = some nt) :
    ns.url = nt.url := by
  obtain ⟨-, -, hedges⟩ := built_inv hg
  obtain ⟨ns', nt', hs', ht', hurl⟩ := hedges e he
  rw [hs] at hs'
  rw [ht] at ht'
  obtain rfl := Option.some_inj.mp hs'
  obtain rfl := Option.some_inj.mp ht'
  exact hurl

/-- The Scenario-A-style two-item batch: one heading and one paragraph on the
same page, the paragraph containing the heading text. -/
def csW : List (Option RawItem) :=
  [some ⟨.str "abcdefghijk", some "h2", "u"⟩, some ⟨.str "zzabcdefghijkzz", some "p", "u"⟩]

def gW : Graph := ingestContent csW emptyGraph

def eW : Edge := ⟨mkId "u" "abcdefghijk", mkId "u" "zzabcdefghijkzz", "section"⟩

def nsW : Node := ⟨mkId "u" "abcdefghijk", "abcdefghijk", "h2", "u"⟩

def ntW : Node := ⟨mkId "u" "zzabcdefghijkzz", "zzabcdefghijkzz", "p", "u"⟩

/-- Witness: the concrete heading→paragraph edge created by ingesting `csW`
into an empty store links two nodes with equal urls. -/
theorem related_edges_same_url_witness :
    eW ∈ gW.edges ∧ nsW.url = ntW.url :=
  ⟨by decide,
    @related_edges_same_url gW (Built.ingest csW emptyGraph Built.empty) eW (by decide)
      nsW ntW (by decide) (by decide)⟩

/-! ## C6 — idempotence of ingestion

The node phase is a sequence of keyed upserts, so replaying it writes the
same final value to every id; the edge phase only reads the (unchanged)
nodes, and `MERGE` skips edges already present. -/

theorem graph_ext {g1 g2 : Graph} (hn : g1.nodes = g2.nodes) (he : g1.edges = g2.edges) :
    g1 = g2 := by
  cases g1; cases g2
  cases hn; cases he
  rfl

/-- The last upsert item targeting the given id. -/
def lastWrite (items : List NormItem) (i : String) : Option NormItem :=
  items.reverse.find? (fun it => it.id = i)

/-- The effect on one node of replaying the whole upsert sequence. -/
def applyLast (items : List NormItem) (n : Node) : Node :=
  match lastWrite items n.id with
  | some it => { n with text := it.text, type := it.type, url := it.url }
  | none => n

def hasId (g : Graph) (i : String) : Prop := ∃ n ∈ g.nodes, n.id = i

theorem hasId_iff_any {g : Graph} {i : String} :
    hasId g i ↔ g.nodes.any (fun n => n.id = i) = true := by
  rw [hasId, List.any_eq_true]
  constructor
  · rintro ⟨n, hn, hid⟩; exact ⟨n, hn, by simp [hid]⟩
  · rintro ⟨n, hn, hid⟩; exact ⟨n, hn, by simpa using hid⟩

theorem hasId_mergeNode_self (g : Graph) (item : NormItem) :
    hasId (mergeNode g item) item.id := by
  rw [mergeNode]
  split
  · rename_i hany
    obtain ⟨n, hn, hid⟩ := hasId_iff_any.mpr hany
    exact ⟨setProps item n, List.mem_map_of_mem _ hn, by rw [setProps_id]; exact hid⟩
  · exact ⟨⟨item.id, item.text, item.type, item.url⟩,
      List.mem_append_right _ (List.mem_singleton_self _), rfl⟩

theorem hasId_mergeNode_mono {g : Graph} {i : String} (h : hasId g i) (item : NormItem) :
    hasId (mergeNode g item) i := by
  obtain ⟨n, hn, hid⟩ := h
  rw [mergeNode]
  split
  · exact ⟨setProps item n, List.mem_map_of_mem _ hn, by rw [setProps_id]; exact hid⟩
  · exact ⟨n, List.mem_append_left _ hn, hid⟩

theorem hasId_foldl_mergeNode_mono :
    ∀ (items : List NormItem) {g : Graph} {i : String}, hasId g i →
      hasId (items.foldl mergeNode g) i := by
  intro items
  induction items with
  | nil => intro g i h; exact h
  | cons a items ih =>
    intro g i h
    rw [List.foldl_cons]
    exact ih (hasId_mergeNode_mono h a)

theorem foldl_mergeNode_present :
    ∀ (items : List NormItem) (g : Graph), ∀ it ∈ items,
      hasId (items.foldl mergeNode g) it.id := by
  intro items
  induction items with
  | nil => intro g it hit; cases hit
  | cons a items ih =>
    intro g it hit
    rw [List.foldl_cons]
    rcases List.mem_cons.mp hit with rfl | hit'
    · exact hasId_foldl_mergeNode_mono items (hasId_mergeNode_self g it)
    · exact ih (mergeNode g a) it hit'

theorem lastWrite_nil (i : String) : lastWrite [] i = none := rfl

theorem lastWrite_cons (a : NormItem) (items : List NormItem) (i : String) :
    lastWrite (a :: items) i
      = (lastWrite items i).or (if a.id = i then some a else none) := by
  rw [lastWrite, lastWrite, List.reverse_cons, List.find?_append]
  congr 1
  by_cases h : a.id = i <;> simp [List.find?, h]

theorem foldl_mergeNode_edges :
    ∀ (items : List NormItem) (g : Graph), (items.foldl mergeNode g).edges = g.edges := by
  intro items
  induction items with
  | nil => intro g; rfl
  | cons a items ih => intro g; rw [List.foldl_cons, ih, mergeNode_edges]

theorem applyLast_eq_some {items : List NormItem} {n : Node} {j : NormItem}
    (h : lastWrite items n.id = some j) :
    applyLast items n = { n with text := j.text, type := j.type, url := j.url } := by
  rw [applyLast, h]

theorem applyLast_eq_none {items : List NormItem} {n : Node}
    (h : lastWrite items n.id = none) : applyLast items n = n := by
  rw [applyLast, h]

theorem foldl_mergeNode_nodes_of_present :
    ∀ (items : List NormItem) (g : Graph), (∀ it ∈ items, hasId g it.id) →
      (items.foldl mergeNode g).nodes = g.nodes.map (applyLast items) := by
  intro items
  induction items with
  | nil =>
    intro g _
    have h : applyLast [] = fun n : Node => n := funext fun n => rfl
    rw [List.foldl_nil, h, List.map_id']
  | cons a items ih =>
    intro g hpres
    rw [List.foldl_cons,
      ih (mergeNode g a)
        (fun it hit => hasId_mergeNode_mono (hpres it (List.mem_cons.mpr (Or.inr hit))) a)]
    rw [mergeNode, if_pos (hasId_iff_any.mp (hpres a (List.mem_cons_self _ _)))]
    simp only [List.map_map]
    apply List.map_congr_left
    intro n hn
    show applyLast items (setProps a n) = applyLast (a :: items) n
    cases hlw : lastWrite items n.id with
    | some j =>
      rw [applyLast_eq_some (by rw [setProps_id]; exact hlw),
        applyLast_eq_some (show lastWrite (a :: items) n.id = some j by
          rw [lastWrite_cons, hlw]; rfl)]
      rw [setProps]
      split <;> rfl
    | none =>
      rw [applyLast_eq_none (by rw [setProps_id]; exact hlw)]
      by_cases hid : a.id = n.id
      · rw [applyLast_eq_some (show lastWrite (a :: items) n.id = some a by
          rw [lastWrite_cons, hlw, Option.none_or, if_pos hid])]
        rw [setProps, if_pos hid.symm]
      · rw [applyLast_eq_none (show lastWrite (a :: items) n.id = none by
          rw [lastWrite_cons, hlw, Option.none_or, if_neg hid])]
        rw [setProps, if_neg (fun h => hid h.symm)]

/-- A node left alone by the whole upsert sequence was already in the store. -/
theorem foldl_mergeNode_untouched :
    ∀ (items : List NormItem) (g : Graph) (n : Node),
      n ∈ (items.foldl mergeNode g).nodes → lastWrite items n.id = none →
      n ∈ g.nodes := by
  intro items
  induction items with
  | nil => intro g n hn _; exact hn
  | cons a items ih =>
    intro g n hn hlw
    rw [lastWrite_cons] at hlw
    have h1 : lastWrite items n.id = none := by
      cases h : lastWrite items n.id with
      | none => rfl
      | some j => rw [h] at hlw; exact Option.noConfusion hlw
    have h2 : a.id ≠ n.id := by
      intro hid
      rw [h1, Option.none_or, if_pos hid] at hlw
      exact Option.noConfusion hlw
    rw [List.foldl_cons] at hn
    have h3 := ih (mergeNode g a) n hn h1
    rw [mergeNode] at h3
    split at h3 <;> simp only at h3
    · rw [List.mem_map] at h3
      obtain ⟨m, hm, hmn⟩ := h3
      rw [setProps] at hmn
      split at hmn
      · rename_i hmid
        exfalso
        apply h2
        rw [← hmn]
        exact hmid.symm
      · exact hmn ▸ hm
    · rcases List.mem_append.mp h3 with hm | hm
      · exact hm
      · rw [List.mem_singleton] at hm
        subst hm
        exact absurd rfl h2

/-- After one upsert, every node carrying the merged id carries its payload. -/
theorem mergeNode_mem_id_props {g : Graph} {a : NormItem} {n : Node}
    (hn : n ∈ (mergeNode g a).nodes) (hid : n.id = a.id) :
    n.text = a.text ∧ n.type = a.type ∧ n.url = a.url := by
  rw [mergeNode] at hn
  split at hn <;> simp only at hn
  · rw [List.mem_map] at hn
    obtain ⟨m, hm, hmn⟩ := hn
    rw [setProps] at hmn
    split at hmn
    · rw [← hmn]
      exact ⟨rfl, rfl, rfl⟩
    · rename_i hne
      exfalso
      apply hne
      rw [← hmn] at hid
      exact hid
  · rename_i hany
    rcases List.mem_append.mp hn with hm | hm
    · exfalso
      apply hany
      rw [List.any_eq_true]
      exact ⟨n, hm, by simp [hid]⟩
    · rw [List.mem_singleton] at hm
      subst hm
      exact ⟨rfl, rfl, rfl⟩

/-- After the whole upsert sequence, every node agrees with the last write
targeting its id. -/
theorem foldl_mergeNode_props :
    ∀ (items : List NormItem) (g : Graph) (n : Node),
      n ∈ (items.foldl mergeNode g).nodes → ∀ j, lastWrite items n.id = some j →
      n.text = j.text ∧ n.type = j.type ∧ n.url = j.url := by
  intro items
  induction items with
  | nil => intro g n _ j hj; exact Option.noConfusion hj
  | cons a items ih =>
    intro g n hn j hj
    rw [List.foldl_cons] at hn
    rw [lastWrite_cons] at hj
    cases hlw : lastWrite items n.id with
    | some j' =>
      rw [hlw] at hj
      have hjj : j' = j := Option.some_inj.mp hj
      rw [← hjj]
      exact ih (mergeNode g a) n hn j' hlw
    | none =>
      rw [hlw, Option.none_or] at hj
      by_cases hid : a.id = n.id
      · rw [if_pos hid] at hj
        have haj : a = j := Option.some_inj.mp hj
        rw [← haj]
        have hmem := foldl_mergeNode_untouched items (mergeNode g a) n hn hlw
        exact mergeNode_mem_id_props hmem hid.symm
      · rw [if_neg hid] at hj
        exact Option.noConfusion hj

theorem hasId_congr_nodes {g1 g2 : Graph} (h : g1.nodes = g2.nodes) {i : String}
    (hh : hasId g1 i) : hasId g2 i := by
  rw [hasId, ← h]
  exact hh

/-- Replaying the node phase on its own output changes nothing. -/
theorem foldl_mergeNode_idem_on (items : List NormItem) (g3 : Graph)
    (hpres : ∀ it ∈ items, hasId g3 it.id)
    (hprops : ∀ n ∈ g3.nodes, ∀ j, lastWrite items n.id = some j →
      n.text = j.text ∧ n.type = j.type ∧ n.url = j.url) :
    items.foldl mergeNode g3 = g3 := by
  apply graph_ext
  · rw [foldl_mergeNode_nodes_of_present items g3 hpres]
    have hfix : ∀ n ∈ g3.nodes, applyLast items n = n := by
      intro n hn
      cases hlw : lastWrite items n.id with
      | none => exact applyLast_eq_none hlw
      | some j =>
        obtain ⟨h1, h2, h3⟩ := hprops n hn j hlw
        rw [applyLast_eq_some hlw]
        obtain ⟨nid, nt, nty, nu⟩ := n
        simp only at h1 h2 h3
        rw [h1, h2, h3]
    rw [List.map_congr_left hfix, List.map_id']
  · rw [foldl_mergeNode_edges]

theorem foldl_mergeEdge_mono (nid ctx : String) :
    ∀ (cands : List Node) (g : Graph) (e : Edge), e ∈ g.edges →
      e ∈ (cands.foldl (fun g2 other => mergeEdge g2 ⟨nid, other.id, ctx⟩) g).edges := by
  intro cands
  induction cands with
  | nil => intro g e he; exact he
  | cons a cs ih =>
    intro g e he
    rw [List.foldl_cons]
    exact ih _ e (mergeEdge_mem_mono he)

theorem foldl_mergeEdge_covers (nid ctx : String) :
    ∀ (cands : List Node) (g : Graph) (c : Node), c ∈ cands →
      (⟨nid, c.id, ctx⟩ : Edge)
        ∈ (cands.foldl (fun g2 other => mergeEdge g2 ⟨nid, other.id, ctx⟩) g).edges := by
  intro cands
  induction cands with
  | nil => intro g c hc; cases hc
  | cons a cs ih =>
    intro g c hc
    rw [List.foldl_cons]
    rcases List.mem_cons.mp hc with rfl | hc'
    · exact foldl_mergeEdge_mono nid ctx cs _ _ (mergeEdge_mem_self g _)
    · exact ih _ c hc'

theorem ingestEdgesFor_edges_mono {g : Graph} (h : NormItem) {e : Edge} (he : e ∈ g.edges) :
    e ∈ (ingestEdgesFor g h).edges := by
  rw [ingestEdgesFor]
  split
  · exact he
  · exact foldl_mergeEdge_mono _ _ _ _ e he

theorem foldl_ingestEdgesFor_edges_mono :
    ∀ (hs : List NormItem) (g : Graph) (e : Edge), e ∈ g.edges →
      e ∈ (hs.foldl ingestEdgesFor g).edges := by
  intro hs
  induction hs with
  | nil => intro g e he; exact he
  | cons h hs ih =>
    intro g e he
    rw [List.foldl_cons]
    exact ih _ e (ingestEdgesFor_edges_mono h he)

theorem ingestEdgesFor_covers {g : Graph} {h : NormItem} {n : Node}
    (hfind : findNode g h.id = some n) {c : Node} (hc : c ∈ edgeCandidates g n) :
    (⟨n.id, c.id, "section"⟩ : Edge) ∈ (ingestEdgesFor g h).edges := by
  rw [ingestEdgesFor, hfind]
  exact foldl_mergeEdge_covers n.id "section" _ g c hc

theorem foldl_ingestEdgesFor_nodes :
    ∀ (hs : List NormItem) (g : Graph), (hs.foldl ingestEdgesFor g).nodes = g.nodes := by
  intro hs
  induction hs with
  | nil => intro g; rfl
  | cons h hs ih => intro g; rw [List.foldl_cons, ih, ingestEdgesFor_nodes]

theorem findNode_congr_nodes {g1 g2 : Graph} (h : g1.nodes = g2.nodes) (i : String) :
    findNode g1 i = findNode g2 i := by
  rw [findNode, findNode, h]

theorem edgeCandidates_congr_nodes {g1 g2 : Graph} (h : g1.nodes = g2.nodes) (n : Node) :
    edgeCandidates g1 n = edgeCandidates g2 n := by
  rw [edgeCandidates, edgeCandidates, h]

/-- Every candidate edge of every heading is present after the edge phase. -/
theorem foldl_ingestEdgesFor_covers :
    ∀ (hs : List NormItem) (g : Graph), ∀ h ∈ hs, ∀ n, findNode g h.id = some n →
      ∀ c ∈ edgeCandidates g n,
        (⟨n.id, c.id, "section"⟩ : Edge) ∈ (hs.foldl ingestEdgesFor g).edges := by
  intro hs
  induction hs with
  | nil => intro g h hh; cases hh
  | cons h0 hs ih =>
    intro g h hh n hfind c hc
    rw [List.foldl_cons]
    rcases List.mem_cons.mp hh with rfl | hh'
    · exact foldl_ingestEdgesFor_edges_mono hs _ _ (ingestEdgesFor_covers hfind hc)
    · have hn : (ingestEdgesFor g h0).nodes = g.nodes := ingestEdgesFor_nodes g h0
      apply ih (ingestEdgesFor g h0) h hh' n
      · rw [findNode_congr_nodes hn]; exact hfind
      · rw [edgeCandidates_congr_nodes hn]; exact hc

theorem foldl_mergeEdge_noop (nid ctx : String) :
    ∀ (cands : List Node) (g : Graph),
      (∀ c ∈ cands, (⟨nid, c.id, ctx⟩ : Edge) ∈ g.edges) →
      cands.foldl (fun g2 other => mergeEdge g2 ⟨nid, other.id, ctx⟩) g = g := by
  intro cands
  induction cands with
  | nil => intro g _; rfl
  | cons a cs ih =>
    intro g hc
    rw [List.foldl_cons, mergeEdge, if_pos (hc a (List.mem_cons_self _ _))]
    exact ih g (fun c hcmem => hc c (List.mem_cons.mpr (Or.inr hcmem)))

theorem ingestEdgesFor_noop {g : Graph} (h : NormItem)
    (hcov : ∀ n, findNode g h.id = some n → ∀ c ∈ edgeCandidates g n,
      (⟨n.id, c.id, "section"⟩ : Edge) ∈ g.edges) :
    ingestEdgesFor g h = g := by
  rw [ingestEdgesFor]
  cases hf : findNode g h.id with
  | none => rfl
  | some n => exact foldl_mergeEdge_noop n.id "section" _ g (hcov n hf)

theorem foldl_ingestEdgesFor_noop :
    ∀ (hs : List NormItem) (g : Graph),
      (∀ h ∈ hs, ∀ n, findNode g h.id = some n → ∀ c ∈ edgeCandidates g n,
        (⟨n.id, c.id, "section"⟩ : Edge) ∈ g.edges) →
      hs.foldl ingestEdgesFor g = g := by
  intro hs
  induction hs with
  | nil => intro g _; rfl
  | cons h0 hs ih =>
    intro g hcov
    rw [List.foldl_cons, ingestEdgesFor_noop h0 (hcov h0 (List.mem_cons_self _ _))]
    exact ih g (fun h hh => hcov h (List.mem_cons.mpr (Or.inr hh)))

/-- C6: ingesting the same content twice leaves the graph store in exactly
the state of ingesting it once — the node set is stable (no duplicate node
per id) and no duplicate `RELATED_TO` edge appears. -/
theorem ingest_idempotent (content : List (Option RawItem)) (g : Graph) :
    ingestContent content (ingestContent content g) = ingestContent content g := by
  rw [ingestContent, ingestContent]
  simp only [ingestNodes, ingestEdges, foldl_chunksOf (by omega : (0:Nat) < 100),
    foldl_chunksOf (by omega : (0:Nat) < 50)]
  set V := validContent content with hV
  set H := V.filter isHeadingType with hH
  set G0 := V.foldl mergeNode g with hG0
  set G1 := H.foldl ingestEdgesFor G0 with hG1
  have hnodes01 : G1.nodes = G0.nodes := foldl_ingestEdgesFor_nodes H G0
  have hstep1 : V.foldl mergeNode G1 = G1 := by
    apply foldl_mergeNode_idem_on
    · intro it hit
      exact hasId_congr_nodes hnodes01.symm (foldl_mergeNode_present V g it hit)
    · intro n hn j hlw
      rw [hnodes01] at hn
      exact foldl_mergeNode_props V g n hn j hlw
  have hstep2 : H.foldl ingestEdgesFor G1 = G1 := by
    apply foldl_ingestEdgesFor_noop
    intro h hh n hfind c hc
    rw [findNode_congr_nodes hnodes01] at hfind
    rw [edgeCandidates_congr_nodes hnodes01] at hc
    exact foldl_ingestEdgesFor_covers H G0 h hh n hfind c hc
  rw [hstep1, hstep2]

end NestleChatbot
